import Mathlib

/-!
Shallow embedding of the SCE auto-calibration driver in
src/autocal/aquimod.py (class AquiModAWS).

Conventions of the embedding:
* A candidate point (one row of the concatenated per-component dataframes)
  is a parameter vector (List of rationals) together with its
  ObjectiveFunction value.  Machine floats are modelled by rationals.
* The external simulator (invoked through AquiModAWS.run followed by
  read_performance_output) is the abstract evaluator f mapping a parameter
  vector to its objective value.  A run in calibration mode with one run
  (the mutation fallback of _cce) makes the simulator itself draw a fresh
  random in-bounds point; this draw is modelled by an oracle stream of
  parameter vectors.
* The weighted random simplex draw (np.random.choice with the weight
  column as p) is modelled by an oracle sel giving, per draw event, the
  list of chosen row positions of the sorted complex.
* The file system used by _edit_line and _read_line is a function from
  path strings to the list of lines of the file at that path.
* In the source the centroid dataframe also carries the ObjectiveFunction
  and weight columns (the drop on the line after the mean is commented
  out); the embedding tracks the parameter columns only, which is the
  quantity the bounds lookup and the simplex geometry are about.
* pandas label alignment at the final write-back of the simplex into the
  complex (complx_df.loc[simplx.index] = simplx) is modelled positionally;
  none of the stated claims depend on the write-back alignment.
-/

/-- One candidate point: parameter coordinates plus its objective value
(one row of the concatenated complex dataframe of _cce). -/
structure Point where
  coords : List ℚ
  objective : ℚ
  deriving DecidableEq

/-- Default point used by total list lookups. -/
def pt0 : Point := ⟨[], 0⟩

/-- Coordinate-wise addition of two parameter vectors. -/
def vadd (a b : List ℚ) : List ℚ := List.zipWith (fun x y => x + y) a b

/-- Coordinate-wise subtraction of two parameter vectors. -/
def vsub (a b : List ℚ) : List ℚ := List.zipWith (fun x y => x - y) a b

/-- Scaling of a parameter vector by a coefficient. -/
def vsmul (c : ℚ) (a : List ℚ) : List ℚ := a.map (fun x => c * x)

/-- Stable insertion (descending by objective value) used to model the
sort of a dataframe by the ObjectiveFunction column, best first. -/
def insertDesc (x : Point) : List Point → List Point
  | [] => [x]
  | y :: ys => if y.objective < x.objective then x :: y :: ys else y :: insertDesc x ys

/-- Sort a list of points descending by objective value (the
sort of complx_df and simplx by ObjectiveFunction, ascending=False). -/
def sortDesc : List Point → List Point
  | [] => []
  | x :: xs => insertDesc x (sortDesc xs)

/-- The bounds check of _cce (step 6): every coordinate of the candidate
must lie within the corresponding min/max calibration limit, inclusive
(minimum <= new.loc[0, col] <= maximum for every column). -/
def inBounds (bounds : List (ℚ × ℚ)) (v : List ℚ) : Bool :=
  (v.zip bounds).all (fun p => decide (p.2.1 ≤ p.1 ∧ p.1 ≤ p.2.2))

/-- Coordinate-wise mean of a list of parameter vectors
(simplx.mean() over each column). -/
def coordMean (pts : List (List ℚ)) : List ℚ :=
  (List.range (pts.headD []).length).map
    (fun k => ((pts.map (fun c => c.getD k 0)).sum) / (pts.length : ℚ))

/-- The centroid computed in step 4 of _cce: the mean of ALL points of
the simplex (the drop of the worst point is not performed in the source). -/
def simplexCentroid (s : List Point) : List ℚ :=
  coordMean (s.map Point.coords)

/-- Step 5 of _cce: new = centroid + reflection_coef * (centroid - worst). -/
def reflectPt (centroid worst : List ℚ) (reflection_coef : ℚ) : List ℚ :=
  vadd centroid (vsmul reflection_coef (vsub centroid worst))

/-- Step 10 of _cce: new = worst + contraction_coef * (centroid - worst). -/
def contractPt (worst centroid : List ℚ) (contraction_coef : ℚ) : List ℚ :=
  vadd worst (vsmul contraction_coef (vsub centroid worst))

/-- The raw rank weight assigned on the weight line of _cce, read
elementwise at rank r (1 = best row after the descending sort):
(2 * (m + 1 + r)) / (m * (m + 1)).  The source literally adds the rank
term (m + 1 + range(1, m + 1)) instead of subtracting it. -/
def cce_weight (m r : ℕ) : ℚ :=
  (2 * ((m : ℚ) + 1 + (r : ℚ))) / ((m : ℚ) * ((m : ℚ) + 1))

/-- The weight after the normalisation line of _cce, which divides each
raw weight by the sum of all raw weights. -/
def cce_weight_normalized (m r : ℕ) : ℚ :=
  cce_weight m r / (Finset.Icc 1 m).sum (fun j => cce_weight m j)

/-- Modelled from the spec: the triangular rank weight
weight(r) = 2 * (m + 1 - r) / (m * (m + 1)) stated in section 4.3 of the
spec, used to compare against the weight line of the source. -/
def specWeight (m r : ℕ) : ℚ :=
  (2 * ((m : ℚ) + 1 - (r : ℚ))) / ((m : ℚ) * ((m : ℚ) + 1))

/-- One inner iteration of _cce (steps 3 to 15 of its docstring, the body
of the for-loop over alpha).  Arguments:
* bounds: the calibration limits (min, max per parameter),
* f: the external evaluator (run + read_performance_output),
* mut1: the random in-bounds point the simulator draws if the reflected
  point fails the bounds check (run in calibration mode, step 7),
* mut2: the random in-bounds point drawn at the second fallback (step 13),
* reflection_coef, contraction_coef: the coefficients (defaults 1 and 1/2
  in the source signature),
* simplx: the current simplex.
Returns the simplex after the unconditional replacement of the worst
point (step 15), together with the list of parameter vectors that were
submitted to the evaluator during the iteration, in order. -/
def cceIter (bounds : List (ℚ × ℚ)) (f : List ℚ → ℚ) (mut1 mut2 : List ℚ)
    (reflection_coef contraction_coef : ℚ) (simplx : List Point) :
    List Point × List (List ℚ) :=
  let sorted := sortDesc simplx
  let worst := sorted.getLastD pt0
  let centroid := simplexCentroid sorted
  let new := reflectPt centroid worst.coords reflection_coef
  let cand1 : Point × List (List ℚ) :=
    if inBounds bounds new then (⟨new, f new⟩, [new]) else (⟨mut1, f mut1⟩, [mut1])
  let cand2 : Point × List (List ℚ) :=
    if cand1.1.objective < worst.objective then
      let c := contractPt worst.coords centroid contraction_coef
      (⟨c, f c⟩, cand1.2 ++ [c])
    else cand1
  let cand3 : Point × List (List ℚ) :=
    if cand2.1.objective < worst.objective then
      (⟨mut2, f mut2⟩, cand2.2 ++ [mut2])
    else cand2
  (sorted.dropLast ++ [cand3.1], cand3.2)

/-- The for-loop of _cce: alpha repetitions of the inner iteration.  The
first argument of the mutation oracle is the index of the random draw;
iteration k may consume draws 2k and 2k+1. -/
def cceLoop (bounds : List (ℚ × ℚ)) (f : List ℚ → ℚ) (muts : ℕ → List ℚ)
    (reflection_coef contraction_coef : ℚ) : ℕ → ℕ → List Point → List Point
  | 0, _, simplx => simplx
  | a + 1, k, simplx =>
      cceLoop bounds f muts reflection_coef contraction_coef a (k + 1)
        (cceIter bounds f (muts (2 * k)) (muts (2 * k + 1))
          reflection_coef contraction_coef simplx).1

/-- The write-back of the evolved simplex rows into the complex
(complx_df.loc[simplx.index] = simplx), modelled positionally. -/
def writeBack (complx_df : List Point) (idxs : List ℕ) (simplx : List Point) :
    List Point :=
  (idxs.zip simplx).foldl (fun acc p => acc.set p.1 p.2) complx_df

/-- The _cce procedure.  The complex is sorted descending by objective
value and the weight column is computed once; the weighted random choice
of simplex rows (np.random.choice over the sorted index with the weights
as p) is modelled by the oracle sel, consulted once with draw index 0,
before the alpha loop, exactly as in the source.  The value is the
complex after the write-back, paired with the trace of simplex draws
performed (the source performs the draw a single time).  The source
function itself returns None; its locally computed complex is exposed
here so that its steps can be stated. -/
def cce (bounds : List (ℚ × ℚ)) (f : List ℚ → ℚ) (sel : ℕ → List ℕ)
    (muts : ℕ → List ℚ) (simplx_size alpha : ℕ)
    (reflection_coef contraction_coef : ℚ) (complx : List Point) :
    List Point × List (List ℕ) :=
  let complx_df := sortDesc complx
  let chosen := (sel 0).take simplx_size
  let simplx := chosen.map (fun i => complx_df.getD i pt0)
  let simplx_final :=
    cceLoop bounds f muts reflection_coef contraction_coef alpha 0 simplx
  (writeBack complx_df chosen simplx_final, [chosen])

/-- The boolean-mask partition of calibrate (step 3): the i-th complex
keeps the rows of the population whose index j satisfies
j % num_complexes == i. -/
def partitionOne {α : Type} (population : List α) (num_complexes i : ℕ) :
    List α :=
  ((population.enum.filter (fun e => e.1 % num_complexes == i)).map Prod.snd)

/-- All complexes produced by the partition loop of calibrate. -/
def partitionComplexes {α : Type} (population : List α) (num_complexes : ℕ) :
    List (List α) :=
  (List.range num_complexes).map (fun i => partitionOne population num_complexes i)

/-- The index set of the i-th complex: the population indices assigned to
complex i by the boolean mask. -/
def complexIdx {α : Type} (population : List α) (num_complexes i : ℕ) :
    List ℕ :=
  (List.range population.length).filter (fun j => j % num_complexes == i)

/-- The calibrate method.  read_performance_output abstracts the pair
run(sim_mode="c", num_runs=sample_size) followed by
read_performance_output(): it yields the evaluated initial population for
a requested number of runs.  sel and muts give each complex its oracle
streams (first argument: complex number).  The source method computes
sample_size, runs the model, partitions the population with the boolean
mask and calls _cce on every complex inside the partition loop (binding
the None result of _cce to the loop variable); it contains no shuffle
step, no convergence check, no further loop, and no return statement, so
its value is None. -/
def calibrate (read_performance_output : ℕ → List Point)
    (bounds : List (ℚ × ℚ)) (f : List ℚ → ℚ)
    (sel : ℕ → ℕ → List ℕ) (muts : ℕ → ℕ → List ℚ)
    (num_complexes complex_size simplex_size alpha : ℕ) :
    Option (Point × List Point) :=
  let sample_size := num_complexes * complex_size
  let population := read_performance_output sample_size
  let _ := (List.range num_complexes).map
    (fun i => cce bounds f (sel i) (muts i) simplex_size alpha 1 (1 / 2)
      (partitionOne population num_complexes i))
  none

/-- The empty string (used where the source writes a string literal in
argument position). -/
def emptyStr : String := ""

/-- The newline character appended by _edit_line. -/
def newline : String :=
  "\n"

/-- The _edit_line method over the file-system model: it reads the lines
of the file at path, replaces the line at line_number, and writes the
result to self.input_path, whatever path was passed. -/
def editLine (fs : String → List String) (input_path : String)
    (path : String) (line_number : ℕ) (text : String) :
    String → List String :=
  let lines := (fs path).set line_number (text ++ newline)
  fun q => if q = input_path then lines else fs q

/-- The _read_line method: the line at line_number of the file at path,
with the newline removed. -/
def readLine (fs : String → List String) (path : String) (line_number : ℕ) :
    String :=
  String.replace ((fs path).getD line_number emptyStr) newline emptyStr

/-- The calibrated_variable property getter: its body evaluates
self._read_line(self.input_path, 7) but has no return statement, so the
property is always None. -/
def calibrated_variable (fs : String → List String) (input_path : String) :
    Option String :=
  let _ := readLine fs input_path 7
  none

/-- The output_calibration_paths property: the per-component output paths
keyed by soil, unsaturated and saturated, extended with a fit entry only
when the calibrated_variable getter compares equal to g or to s. -/
def output_calibration_paths (fs : String → List String)
    (input_path model_dir soil unsaturated saturated : String) :
    List (String × String) :=
  let paths : List (String × String) :=
    [("soil", model_dir ++ "/Output/" ++ soil ++ "_calib.out"),
     ("unsaturated", model_dir ++ "/Output/" ++ unsaturated ++ "_calib.out"),
     ("saturated", model_dir ++ "/Output/" ++ saturated ++ "_calib.out")]
  if calibrated_variable fs input_path = some ("g") then
    paths ++ [("fit", model_dir ++ "/Output/fit_calib_GWL.out")]
  else if calibrated_variable fs input_path = some ("s") then
    paths ++ [("fit", model_dir ++ "/Output/fit_calib_SM.out")]
  else paths

/-! Helper lemmas about the embedding. -/

theorem insertDesc_length (x : Point) (l : List Point) :
    (insertDesc x l).length = l.length + 1 := by
  induction l with
  | nil => rfl
  | cons y ys ih =>
      unfold insertDesc
      split
      · simp
      · simp [ih]

theorem sortDesc_length (l : List Point) : (sortDesc l).length = l.length := by
  induction l with
  | nil => rfl
  | cons x xs ih => simp [sortDesc, insertDesc_length, ih]

theorem mem_insertDesc {y x : Point} {l : List Point} :
    y ∈ insertDesc x l ↔ y = x ∨ y ∈ l := by
  induction l with
  | nil => simp [insertDesc]
  | cons z zs ih =>
      unfold insertDesc
      split
      · simp
      · simp [ih]
        tauto

theorem mem_sortDesc {y : Point} {l : List Point} :
    y ∈ sortDesc l ↔ y ∈ l := by
  induction l with
  | nil => simp [sortDesc]
  | cons x xs ih => simp [sortDesc, mem_insertDesc, ih]

theorem sortDesc_ne_nil {l : List Point} (h : l ≠ []) : sortDesc l ≠ [] := by
  intro hc
  apply h
  have := sortDesc_length l
  rw [hc] at this
  exact List.length_eq_zero.mp this.symm

theorem getLastD_mem {α : Type} (l : List α) (d : α) (h : l ≠ []) :
    l.getLastD d ∈ l := by
  induction l generalizing d with
  | nil => exact absurd rfl h
  | cons x xs ih =>
      cases xs with
      | nil => simp [List.getLastD]
      | cons y ys =>
          have hmem := ih x (by simp)
          rw [List.getLastD_cons]
          exact List.mem_cons_of_mem x hmem

theorem headD_mem {α : Type} (l : List α) (d : α) (h : l ≠ []) :
    l.headD d ∈ l := by
  cases l with
  | nil => exact absurd rfl h
  | cons x xs => simp

theorem map_getD_of_lt {α β : Type} (g : α → β) (l : List α) (dα : α) (dβ : β)
    (k : ℕ) (h : k < l.length) : (l.map g).getD k dβ = g (l.getD k dα) := by
  rw [List.getD_eq_getElem (l.map g) dβ (by simpa using h),
    List.getD_eq_getElem l dα h, List.getElem_map]

theorem zipWith_getD (f : ℚ → ℚ → ℚ) (a b : List ℚ) (k : ℕ)
    (ha : k < a.length) (hb : k < b.length) :
    (List.zipWith f a b).getD k 0 = f (a.getD k 0) (b.getD k 0) := by
  rw [List.getD_eq_getElem (List.zipWith f a b) 0
      (by simp [List.length_zipWith]; omega),
    List.getD_eq_getElem a 0 ha, List.getD_eq_getElem b 0 hb,
    List.getElem_zipWith]

theorem coordMean_length (pts : List (List ℚ)) :
    (coordMean pts).length = (pts.headD []).length := by
  simp [coordMean]

theorem coordMean_getD (pts : List (List ℚ)) (k : ℕ)
    (hk : k < (pts.headD []).length) :
    (coordMean pts).getD k 0 =
      (pts.map (fun c => c.getD k 0)).sum / (pts.length : ℚ) := by
  unfold coordMean
  rw [map_getD_of_lt _ (List.range (pts.headD []).length) 0 0 k (by simpa using hk),
    List.getD_eq_getElem _ 0 (by simpa using hk), List.getElem_range]

theorem inBounds_iff (bounds : List (ℚ × ℚ)) (v : List ℚ)
    (h : v.length = bounds.length) :
    inBounds bounds v = true ↔
      ∀ k, k < bounds.length →
        (bounds.getD k ((0 : ℚ), (0 : ℚ))).1 ≤ v.getD k 0 ∧
          v.getD k 0 ≤ (bounds.getD k ((0 : ℚ), (0 : ℚ))).2 := by
  induction bounds generalizing v with
  | nil =>
      have : v = [] := List.length_eq_zero.mp (by simpa using h)
      subst this
      simp [inBounds]
  | cons b bs ih =>
      cases v with
      | nil => simp at h
      | cons x xs =>
          have hlen : xs.length = bs.length := by simpa using h
          constructor
          · intro hall k hk
            have hx : (b.1 ≤ x ∧ x ≤ b.2) ∧ inBounds bs xs = true := by
              simpa [inBounds, List.all_cons] using hall
            cases k with
            | zero => simpa using hx.1
            | succ k =>
                have := (ih xs hlen).mp hx.2 k (by simpa using hk)
                simpa using this
          · intro hall
            have hx : b.1 ≤ x ∧ x ≤ b.2 := by
              have := hall 0 (by simp)
              simpa using this
            have hrest : inBounds bs xs = true := by
              apply (ih xs hlen).mpr
              intro k hk
              have := hall (k + 1) (by simpa using hk)
              simpa using this
            simpa [inBounds, List.all_cons] using And.intro hx hrest

theorem list_mul_le_sum (l : List ℚ) (c : ℚ) (h : ∀ x ∈ l, c ≤ x) :
    (l.length : ℚ) * c ≤ l.sum := by
  induction l with
  | nil => simp
  | cons a t ih =>
      have ha := h a (by simp)
      have ht := ih (fun x hx => h x (List.mem_cons_of_mem a hx))
      simp only [List.length_cons, List.sum_cons]
      push_cast
      nlinarith

theorem list_sum_le_mul (l : List ℚ) (c : ℚ) (h : ∀ x ∈ l, x ≤ c) :
    l.sum ≤ (l.length : ℚ) * c := by
  induction l with
  | nil => simp
  | cons a t ih =>
      have ha := h a (by simp)
      have ht := ih (fun x hx => h x (List.mem_cons_of_mem a hx))
      simp only [List.length_cons, List.sum_cons]
      push_cast
      nlinarith

theorem mean_in_bounds (bounds : List (ℚ × ℚ)) (pts : List (List ℚ))
    (hne : pts ≠ [])
    (hlen : ∀ c ∈ pts, c.length = bounds.length)
    (hin : ∀ c ∈ pts, inBounds bounds c = true) :
    inBounds bounds (coordMean pts) = true := by
  have hhead : (pts.headD []).length = bounds.length :=
    hlen (pts.headD []) (headD_mem pts [] hne)
  have hN : (0 : ℚ) < (pts.length : ℚ) := by
    have : 0 < pts.length := List.length_pos.mpr hne
    exact_mod_cast this
  apply (inBounds_iff bounds (coordMean pts)
    (by rw [coordMean_length, hhead])).mpr
  intro k hk
  rw [coordMean_getD pts k (by rw [hhead]; exact hk)]
  have hlo : ∀ x ∈ pts.map (fun c => c.getD k 0),
      (bounds.getD k ((0 : ℚ), (0 : ℚ))).1 ≤ x := by
    intro x hx
    obtain ⟨c, hc, rfl⟩ := List.mem_map.mp hx
    exact ((inBounds_iff bounds c (hlen c hc)).mp (hin c hc) k hk).1
  have hhi : ∀ x ∈ pts.map (fun c => c.getD k 0),
      x ≤ (bounds.getD k ((0 : ℚ), (0 : ℚ))).2 := by
    intro x hx
    obtain ⟨c, hc, rfl⟩ := List.mem_map.mp hx
    exact ((inBounds_iff bounds c (hlen c hc)).mp (hin c hc) k hk).2
  constructor
  · rw [le_div_iff₀ hN]
    have := list_mul_le_sum (pts.map (fun c => c.getD k 0)) _ hlo
    simpa [mul_comm] using this
  · rw [div_le_iff₀ hN]
    have := list_sum_le_mul (pts.map (fun c => c.getD k 0)) _ hhi
    simpa [mul_comm] using this

theorem convex_comb_length (a b : List ℚ) (t : ℚ) (h : a.length = b.length) :
    (vadd a (vsmul t (vsub b a))).length = a.length := by
  simp [vadd, vsmul, vsub, List.length_zipWith, h]

theorem convex_comb_inBounds (bounds : List (ℚ × ℚ)) (a b : List ℚ) (t : ℚ)
    (h0 : 0 ≤ t) (h1 : t ≤ 1)
    (ha : inBounds bounds a = true) (hb : inBounds bounds b = true)
    (hla : a.length = bounds.length) (hlb : b.length = bounds.length) :
    inBounds bounds (vadd a (vsmul t (vsub b a))) = true := by
  apply (inBounds_iff bounds _ (by rw [convex_comb_length a b t (by omega)]; exact hla)).mpr
  intro k hk
  have hka : k < a.length := by omega
  have hkb : k < b.length := by omega
  have hsub : (vsub b a).getD k 0 = b.getD k 0 - a.getD k 0 :=
    zipWith_getD _ b a k hkb hka
  have hsmul : (vsmul t (vsub b a)).getD k 0 = t * (b.getD k 0 - a.getD k 0) := by
    unfold vsmul
    rw [map_getD_of_lt _ (vsub b a) 0 0 k
        (by simp [vsub, List.length_zipWith]; omega), hsub]
  have hvadd : (vadd a (vsmul t (vsub b a))).getD k 0 =
      a.getD k 0 + t * (b.getD k 0 - a.getD k 0) := by
    unfold vadd
    rw [zipWith_getD _ a (vsmul t (vsub b a)) k hka
        (by simp [vsmul, vsub, List.length_zipWith]; omega), hsmul]
  rw [hvadd]
  have hba := (inBounds_iff bounds a hla).mp ha k hk
  have hbb := (inBounds_iff bounds b hlb).mp hb k hk
  constructor
  · nlinarith [hba.1, hbb.1]
  · nlinarith [hba.2, hbb.2]

theorem reflect_one (c w : List ℚ) : reflectPt c w 1 = vsub (vsmul 2 c) w := by
  induction c generalizing w with
  | nil => cases w <;> simp [reflectPt, vadd, vsub, vsmul]
  | cons x xs ih =>
      cases w with
      | nil => simp [reflectPt, vadd, vsub, vsmul]
      | cons y ys =>
          have htail := ih ys
          simp only [reflectPt, vadd, vsub, vsmul, List.map_cons,
            List.zipWith_cons_cons] at htail ⊢
          rw [htail]
          congr 1
          ring

theorem contract_half (w c : List ℚ) :
    contractPt w c (1 / 2) = vsmul (1 / 2) (vadd w c) := by
  induction w generalizing c with
  | nil => cases c <;> simp [contractPt, vadd, vsub, vsmul]
  | cons x xs ih =>
      cases c with
      | nil => simp [contractPt, vadd, vsub, vsmul]
      | cons y ys =>
          have htail := ih ys
          simp only [contractPt, vadd, vsub, vsmul, List.map_cons,
            List.zipWith_cons_cons] at htail ⊢
          rw [htail]
          congr 1
          ring

theorem countP_range_mod (p i : ℕ) (hi : i < p) (m : ℕ) :
    (List.range (p * m)).countP (fun j => j % p == i) = m := by
  induction m with
  | zero => simp
  | succ m ih =>
      have hstep : p * (m + 1) = p * m + p := by ring
      rw [hstep, List.range_add, List.countP_append, ih, List.countP_map]
      have hmod : ∀ x, x < p → (p * m + x) % p = x := by
        intro x hxp
        rw [Nat.add_comm, Nat.mul_comm, Nat.add_mul_mod_self_right]
        exact Nat.mod_eq_of_lt hxp
      have hcong : ∀ x ∈ List.range p,
          (((fun j => j % p == i) ∘ (fun x => p * m + x)) x = true) ↔
            ((fun x => x == i) x = true) := by
        intro x hx
        have hxp : x < p := List.mem_range.mp hx
        simp [Function.comp, hmod x hxp]
      rw [List.countP_congr hcong]
      have : (List.range p).countP (fun x => x == i) = 1 := by
        have hnodup : (List.range p).Nodup := List.nodup_range p
        have hmem : i ∈ List.range p := List.mem_range.mpr hi
        have := List.count_eq_one_of_mem hnodup hmem
        simpa [List.count] using this
      omega

theorem countP_enum_fst {α : Type} (pop : List α) (q : ℕ → Bool) :
    pop.enum.countP (fun e => q e.1) = (List.range pop.length).countP q := by
  have h1 : pop.enum.map Prod.fst = List.range pop.length := List.enum_map_fst pop
  have h2 := List.countP_map q Prod.fst pop.enum
  rw [h1] at h2
  exact h2.symm

theorem partitionOne_length_eq_countP {α : Type} (pop : List α) (p i : ℕ) :
    (partitionOne pop p i).length =
      (List.range pop.length).countP (fun j => j % p == i) := by
  unfold partitionOne
  rw [List.length_map, ← List.countP_eq_length_filter]
  exact countP_enum_fst pop (fun j => j % p == i)

theorem get_mem_partitionOne {α : Type} (pop : List α) (p : ℕ)
    (j : ℕ) (hj : j < pop.length) :
    pop.get ⟨j, hj⟩ ∈ partitionOne pop p (j % p) := by
  unfold partitionOne
  apply List.mem_map.mpr
  refine ⟨(j, pop.get ⟨j, hj⟩), ?_, rfl⟩
  apply List.mem_filter.mpr
  constructor
  · have hlt : j < pop.enum.length := by simpa [List.enum_length] using hj
    rw [List.get_eq_getElem, ← List.getElem_enum pop j hlt]
    exact List.getElem_mem hlt
  · simp

theorem sum_map_add {α : Type} (l : List α) (f g : α → ℕ) :
    (l.map (fun x => f x + g x)).sum = (l.map f).sum + (l.map g).sum := by
  induction l with
  | nil => simp
  | cons a t ih => simp [ih]; omega

theorem sum_indicator_range (p k : ℕ) (hk : k < p) :
    ((List.range p).map (fun i => if k = i then (1 : ℕ) else 0)).sum = 1 := by
  induction p with
  | zero => omega
  | succ p ih =>
      rw [List.range_succ, List.map_append, List.sum_append]
      by_cases hkp : k = p
      · subst hkp
        have hzero : ((List.range k).map (fun i => if k = i then (1 : ℕ) else 0)).sum = 0 := by
          apply List.sum_eq_zero
          intro x hx
          obtain ⟨i, hi, rfl⟩ := List.mem_map.mp hx
          have : i < k := List.mem_range.mp hi
          simp [Nat.ne_of_gt this]
        simp [hzero]
      · have hklt : k < p := by omega
        rw [ih hklt]
        simp [hkp]

theorem sum_countP_mod (p : ℕ) (hp : 0 < p) (n : ℕ) :
    (((List.range p).map
      (fun i => (List.range n).countP (fun j => j % p == i))).sum) = n := by
  induction n with
  | zero => simp [List.countP_nil]
  | succ n ih =>
      have hsplit : ∀ i : ℕ, (List.range (n + 1)).countP (fun j => j % p == i) =
          (List.range n).countP (fun j => j % p == i) +
            (if n % p = i then 1 else 0) := by
        intro i
        rw [List.range_succ, List.countP_append]
        simp [List.countP_cons, beq_iff_eq]
      rw [List.map_congr_left (fun i _ => hsplit i), sum_map_add, ih,
        sum_indicator_range p (n % p) (Nat.mod_lt n hp)]

theorem sum_Icc_const_sub (c : ℚ) (m : ℕ) :
    (Finset.Icc 1 m).sum (fun r => c - (r : ℚ)) =
      (m : ℚ) * c - (m : ℚ) * ((m : ℚ) + 1) / 2 := by
  induction m with
  | zero => simp
  | succ m ih =>
      rw [Finset.sum_Icc_succ_top (by omega), ih]
      push_cast
      ring

theorem specWeight_sum (m : ℕ) (hm : 1 ≤ m) :
    (Finset.Icc 1 m).sum (fun r => specWeight m r) = 1 := by
  have hm0 : (0 : ℚ) < (m : ℚ) := by exact_mod_cast hm
  have hterm : ∀ r ∈ Finset.Icc 1 m,
      specWeight m r =
        (2 / ((m : ℚ) * ((m : ℚ) + 1))) * (((m : ℚ) + 1) - (r : ℚ)) := by
    intro r _
    unfold specWeight
    ring
  rw [Finset.sum_congr rfl hterm, ← Finset.mul_sum,
    sum_Icc_const_sub ((m : ℚ) + 1) m]
  have h1 : (m : ℚ) ≠ 0 := ne_of_gt hm0
  have h2 : (m : ℚ) + 1 ≠ 0 := by positivity
  field_simp
  ring

/-! Claim theorems. -/

/-- Claim C1 (the source is at odds with it): the calibrate method of the
source performs one sample-partition-evolve pass with the coefficient
defaults, discards every _cce result, contains no shuffle step, no
convergence check (its signature has no max_trials and no
convergence_epsilon parameter) and no return statement, so its value is
always None: it never returns a best point together with a final
population. -/
theorem claim_C1_calibrate_none
    (read_performance_output : ℕ → List Point) (bounds : List (ℚ × ℚ))
    (f : List ℚ → ℚ) (sel : ℕ → ℕ → List ℕ) (muts : ℕ → ℕ → List ℚ)
    (num_complexes complex_size simplex_size alpha : ℕ) :
    calibrate read_performance_output bounds f sel muts
      num_complexes complex_size simplex_size alpha = none := rfl

/-- Claim C2 (the source is at odds with it): the triangular weight of
the spec, 2(m+1-r)/(m(m+1)), sums to exactly 1 over r = 1..m, but the
weight line of _cce computes 2(m+1+r)/(m(m+1)): at m = 2 the raw code
weights differ from the spec weight, sum to 3 instead of 1, and even
after the normalisation line the worse rank receives the larger
probability. -/
theorem claim_C2_weight_formula :
    (∀ m : ℕ, 1 ≤ m → (Finset.Icc 1 m).sum (fun r => specWeight m r) = 1)
    ∧ cce_weight 2 1 ≠ specWeight 2 1
    ∧ cce_weight 2 1 + cce_weight 2 2 = 3
    ∧ specWeight 2 1 + specWeight 2 2 = 1
    ∧ cce_weight_normalized 2 1 < cce_weight_normalized 2 2 := by
  have hIcc : Finset.Icc 1 2 = ({1, 2} : Finset ℕ) := by decide
  have hsum : (Finset.Icc 1 2).sum (fun j => cce_weight 2 j) = 3 := by
    rw [hIcc, Finset.sum_insert (by decide), Finset.sum_singleton]
    norm_num [cce_weight]
  refine ⟨specWeight_sum, ?_, ?_, ?_, ?_⟩
  · norm_num [cce_weight, specWeight]
  · norm_num [cce_weight]
  · norm_num [specWeight]
  · unfold cce_weight_normalized
    rw [hsum]
    norm_num [cce_weight]

/-- Witness for claim C2 at m = 3. -/
theorem claim_C2_witness :
    (Finset.Icc 1 3).sum (fun r => specWeight 3 r) = 1 :=
  claim_C2_weight_formula.1 3 (by decide)

/-- Claim C9: _edit_line reads the lines of the file at path, but always
writes the edited lines to input_path; any other file, in particular the
file at path itself when path differs from input_path, is unchanged. -/
theorem claim_C9_edit_line_frame (fs : String → List String)
    (input_path path : String) (line_number : ℕ) (text : String) :
    (editLine fs input_path path line_number text) input_path =
        (fs path).set line_number (text ++ newline)
    ∧ (path ≠ input_path →
        (editLine fs input_path path line_number text) path = fs path)
    ∧ (∀ q, q ≠ input_path →
        (editLine fs input_path path line_number text) q = fs q) := by
  refine ⟨?_, ?_, ?_⟩
  · simp [editLine]
  · intro h
    simp [editLine, h]
  · intro q h
    simp [editLine, h]

/-- Witness for claim C9: editing via a path different from the input
path leaves the file at that path unchanged. -/
theorem claim_C9_witness :
    (editLine (fun _ => ["a", "b"]) ("Input.txt") ("Other.txt") 0 ("x"))
      ("Other.txt") = ["a", "b"] := by
  have h := (claim_C9_edit_line_frame (fun _ => ["a", "b"]) ("Input.txt")
    ("Other.txt") 0 ("x")).2.1 (by decide)
  simpa using h

/-- Claim C10: the calibrated_variable getter never returns a value (its
body lacks a return statement, so the property is None), hence neither
comparison against g or s in output_calibration_paths succeeds and the
returned dictionary holds exactly the soil, unsaturated and saturated
entries, never a fit entry. -/
theorem claim_C10_no_fit_entry (fs : String → List String)
    (input_path model_dir soil unsaturated saturated : String) :
    calibrated_variable fs input_path = none
    ∧ (output_calibration_paths fs input_path model_dir soil unsaturated
        saturated).map Prod.fst = ["soil", "unsaturated", "saturated"] := by
  constructor
  · rfl
  · simp [output_calibration_paths, calibrated_variable]

/-- Counterexample to claim C8: a population of five points partitioned
into two complexes does not fail, there is no PartitionSizeError in the
source; the boolean-mask partition simply yields complexes of unequal
sizes 3 and 2. -/
theorem claim_C8_counterexample :
    partitionComplexes [10, 20, 30, 40, 50] 2 = [[10, 30, 50], [20, 40]]
    ∧ (partitionComplexes [10, 20, 30, 40, 50] 2).map List.length = [3, 2] := by
  constructor <;> rfl

/-- Counterexample to claim C3: on the sorted two-point simplex with
coordinates [0] (objective 1, best) and [2] (objective 0, worst), the
centroid of _cce is the mean of ALL simplex points, so the evaluated
reflection candidate is [0]; had the worst point been excluded from the
centroid as the claim states, the reflection candidate would have been
[-2]. -/
theorem claim_C3_counterexample :
    ((cceIter [((-10 : ℚ), 10)] (fun _ => (5 : ℚ)) [0] [0] 1 (1 / 2)
        ([⟨[0], 1⟩, ⟨[2], 0⟩] : List Point)).2).headD [] =
      reflectPt (simplexCentroid (sortDesc ([⟨[0], 1⟩, ⟨[2], 0⟩] : List Point)))
        ((sortDesc ([⟨[0], 1⟩, ⟨[2], 0⟩] : List Point)).getLastD pt0).coords 1
    ∧ simplexCentroid (sortDesc ([⟨[0], 1⟩, ⟨[2], 0⟩] : List Point)) ≠
        coordMean ((sortDesc ([⟨[0], 1⟩, ⟨[2], 0⟩] : List Point)).dropLast.map
          Point.coords)
    ∧ ((cceIter [((-10 : ℚ), 10)] (fun _ => (5 : ℚ)) [0] [0] 1 (1 / 2)
        ([⟨[0], 1⟩, ⟨[2], 0⟩] : List Point)).2).headD [] ≠
      reflectPt
        (coordMean ((sortDesc ([⟨[0], 1⟩, ⟨[2], 0⟩] : List Point)).dropLast.map
          Point.coords))
        ((sortDesc ([⟨[0], 1⟩, ⟨[2], 0⟩] : List Point)).getLastD pt0).coords 1 := by
  refine ⟨?_, ?_, ?_⟩ <;>
    norm_num [cceIter, sortDesc, insertDesc, simplexCentroid, coordMean,
      reflectPt, contractPt, vadd, vsub, vsmul, inBounds, pt0, List.range_succ]

/-- Counterexample to claim C6: with alpha = 2 inner iterations, _cce
performs exactly one weighted simplex draw (before the loop), not one
draw at the start of each of the two iterations. -/
theorem claim_C6_counterexample :
    ((cce [((0 : ℚ), 10)] (fun _ => (5 : ℚ)) (fun _ => [0, 1]) (fun _ => [1])
        2 2 1 (1 / 2) ([⟨[1], 3⟩, ⟨[2], 2⟩, ⟨[3], 1⟩] : List Point)).2).length = 1
    ∧ ((cce [((0 : ℚ), 10)] (fun _ => (5 : ℚ)) (fun _ => [0, 1]) (fun _ => [1])
        2 2 1 (1 / 2) ([⟨[1], 3⟩, ⟨[2], 2⟩, ⟨[3], 1⟩] : List Point)).2).length ≠ 2 := by
  constructor
  · rfl
  · decide

/-- Claim C7: for a population of num_complexes * complex_size points the
boolean-mask partition assigns the point at index j to complex
j % num_complexes, every complex receives exactly
population.length / num_complexes points, and the index sets of the
complexes are pairwise disjoint with union the full index range of the
population. -/
theorem claim_C7_partition (population : List Point) (p m : ℕ)
    (hp : 0 < p) (hlen : population.length = p * m) :
    (∀ i, i < p →
      (partitionOne population p i).length = population.length / p)
    ∧ (∀ j (hj : j < population.length),
        population.get ⟨j, hj⟩ ∈ partitionOne population p (j % p))
    ∧ (∀ i1 i2 j, i1 ≠ i2 →
        j ∈ complexIdx population p i1 → j ∉ complexIdx population p i2)
    ∧ (∀ j, j < population.length ↔
        ∃ i, i < p ∧ j ∈ complexIdx population p i) := by
  refine ⟨?_, ?_, ?_, ?_⟩
  · intro i hi
    rw [partitionOne_length_eq_countP, hlen, countP_range_mod p i hi m,
      Nat.mul_div_cancel_left m hp]
  · intro j hj
    exact get_mem_partitionOne population p j hj
  · intro i1 i2 j hne h1 h2
    unfold complexIdx at h1 h2
    have e1 : j % p = i1 := by simpa using (List.mem_filter.mp h1).2
    have e2 : j % p = i2 := by simpa using (List.mem_filter.mp h2).2
    exact hne (e1 ▸ e2)
  · intro j
    constructor
    · intro hj
      refine ⟨j % p, Nat.mod_lt j hp, ?_⟩
      unfold complexIdx
      exact List.mem_filter.mpr ⟨List.mem_range.mpr hj, by simp⟩
    · rintro ⟨i, _, hmem⟩
      unfold complexIdx at hmem
      exact List.mem_range.mp (List.mem_filter.mp hmem).1

/-- Witness for claim C7 on a four-point population split into two
complexes of two points each. -/
theorem claim_C7_witness :
    (partitionOne ([⟨[], 4⟩, ⟨[], 3⟩, ⟨[], 2⟩, ⟨[], 1⟩] : List Point) 2 0).length
      = 2 := by
  have h := (claim_C7_partition
    ([⟨[], 4⟩, ⟨[], 3⟩, ⟨[], 2⟩, ⟨[], 1⟩] : List Point) 2 2
    (by decide) (by decide)).1 0 (by decide)
  simpa using h

/-- Claim C8 amended: the source defines no PartitionSizeError and
performs no size validation; for every population and every positive
num_complexes the boolean-mask partition succeeds, yielding num_complexes
complexes whose sizes sum to the population size (each index lands in
exactly one complex), also when the population size is not divisible by
num_complexes. -/
theorem claim_C8_partition_total {α : Type} (population : List α) (p : ℕ)
    (hp : 0 < p) :
    (partitionComplexes population p).length = p
    ∧ ((partitionComplexes population p).map List.length).sum =
        population.length := by
  constructor
  · simp [partitionComplexes]
  · unfold partitionComplexes
    rw [List.map_map]
    have hcomp : (List.length ∘ fun i => partitionOne population p i) =
        (fun i => (List.range population.length).countP (fun j => j % p == i)) := by
      funext i
      exact partitionOne_length_eq_countP population p i
    rw [hcomp]
    exact sum_countP_mod p hp population.length

/-- Witness for claim C8 amended: the indivisible five-point population
still has all five points assigned across the two complexes. -/
theorem claim_C8_witness :
    ((partitionComplexes [10, 20, 30, 40, 50] 2).map List.length).sum = 5 := by
  have h := (claim_C8_partition_total [10, 20, 30, 40, 50] 2 (by decide)).2
  simpa using h

/-- Claim C6 amended: in _cce the complex is sorted and the rank-weighted
simplex draw is performed exactly once, before the alpha inner
iterations; the same simplex (as evolved in place) persists across all
iterations, so the result of _cce depends only on draw 0 of the selection
oracle, and the trace of draws has a single entry whatever alpha is. -/
theorem claim_C6_single_draw (bounds : List (ℚ × ℚ)) (f : List ℚ → ℚ)
    (sel sel2 : ℕ → List ℕ) (muts : ℕ → List ℚ) (simplx_size alpha : ℕ)
    (reflection_coef contraction_coef : ℚ) (complx : List Point)
    (h : sel 0 = sel2 0) :
    cce bounds f sel muts simplx_size alpha reflection_coef contraction_coef
        complx =
      cce bounds f sel2 muts simplx_size alpha reflection_coef
        contraction_coef complx
    ∧ (cce bounds f sel muts simplx_size alpha reflection_coef
        contraction_coef complx).2 = [(sel 0).take simplx_size] := by
  constructor
  · unfold cce
    rw [h]
  · rfl

/-- Witness for claim C6 amended: changing the selection oracle anywhere
past draw 0 leaves the result of _cce unchanged, at alpha = 2. -/
theorem claim_C6_witness :
    cce [((0 : ℚ), 10)] (fun _ => (5 : ℚ)) (fun _ => [0, 1]) (fun _ => [1])
        2 2 1 (1 / 2) ([⟨[1], 3⟩, ⟨[2], 2⟩, ⟨[3], 1⟩] : List Point) =
      cce [((0 : ℚ), 10)] (fun _ => (5 : ℚ))
        (fun n => if n = 0 then [0, 1] else [5]) (fun _ => [1])
        2 2 1 (1 / 2) ([⟨[1], 3⟩, ⟨[2], 2⟩, ⟨[3], 1⟩] : List Point) :=
  (claim_C6_single_draw _ _ _ _ _ _ _ _ _ _ rfl).1

/-- Claim C3 amended: the centroid used by the reflection step of every
CCE inner iteration is the coordinate-wise mean of ALL simplex_size
points of the sorted Simplex, the worst point included: along every
coordinate, the centroid times the simplex size equals the sum of that
coordinate over all simplex points. -/
theorem claim_C3_centroid_mean_of_all (s : List Point) (n : ℕ)
    (hs : s ≠ []) (hn : ∀ pt ∈ s, pt.coords.length = n) :
    (simplexCentroid (sortDesc s)).length = n
    ∧ ∀ k, k < n →
        (simplexCentroid (sortDesc s)).getD k 0 * (s.length : ℚ) =
          ((sortDesc s).map (fun pt => pt.coords.getD k 0)).sum := by
  have hsne : sortDesc s ≠ [] := sortDesc_ne_nil hs
  have hheadlen : (((sortDesc s).map Point.coords).headD []).length = n := by
    cases hsort : sortDesc s with
    | nil => exact absurd hsort hsne
    | cons x xs =>
        simp only [List.map_cons, List.headD_cons]
        apply hn
        apply mem_sortDesc.mp
        rw [hsort]
        simp
  have hpos : 0 < s.length := List.length_pos.mpr hs
  constructor
  · rw [simplexCentroid, coordMean_length, hheadlen]
  · intro k hk
    rw [simplexCentroid, coordMean_getD _ k (by rw [hheadlen]; exact hk),
      List.map_map, List.length_map, sortDesc_length]
    have hne0 : ((s.length : ℚ)) ≠ 0 := by
      exact_mod_cast Nat.pos_iff_ne_zero.mp hpos
    rw [div_mul_cancel₀ _ hne0]
    rfl

/-- Witness for claim C3 amended on a concrete two-point simplex. -/
theorem claim_C3_witness :
    (simplexCentroid (sortDesc ([⟨[0], 1⟩, ⟨[2], 0⟩] : List Point))).getD 0 0 *
        ((([⟨[0], 1⟩, ⟨[2], 0⟩] : List Point)).length : ℚ) =
      ((sortDesc ([⟨[0], 1⟩, ⟨[2], 0⟩] : List Point)).map
        (fun pt => pt.coords.getD 0 0)).sum :=
  (claim_C3_centroid_mean_of_all ([⟨[0], 1⟩, ⟨[2], 0⟩] : List Point) 1
    (by decide) (by decide)).2 0 (by decide)

/-- Claim C4: in every CCE inner iteration the reflected candidate is
evaluated only when each of its coordinates lies within the inclusive
ParameterSpace bounds; when any coordinate is out of bounds the reflected
point is discarded and the fresh random in-bounds mutation point is
evaluated instead, and (the mutation draws being in-bounds and the
simplex points lying within bounds) every parameter vector submitted to
the evaluator during the iteration is within bounds. -/
theorem claim_C4_bounds_safety (bounds : List (ℚ × ℚ)) (f : List ℚ → ℚ)
    (mut1 mut2 : List ℚ) (reflection_coef contraction_coef : ℚ)
    (s : List Point)
    (hs : s ≠ [])
    (hc0 : 0 ≤ contraction_coef) (hc1 : contraction_coef ≤ 1)
    (hm1 : inBounds bounds mut1 = true) (hm2 : inBounds bounds mut2 = true)
    (hpts : ∀ pt ∈ s, inBounds bounds pt.coords = true ∧
      pt.coords.length = bounds.length) :
    (inBounds bounds (reflectPt (simplexCentroid (sortDesc s))
        ((sortDesc s).getLastD pt0).coords reflection_coef) = true →
      ((cceIter bounds f mut1 mut2 reflection_coef contraction_coef s).2).headD []
        = reflectPt (simplexCentroid (sortDesc s))
            ((sortDesc s).getLastD pt0).coords reflection_coef)
    ∧ (inBounds bounds (reflectPt (simplexCentroid (sortDesc s))
        ((sortDesc s).getLastD pt0).coords reflection_coef) = false →
      ((cceIter bounds f mut1 mut2 reflection_coef contraction_coef s).2).headD []
        = mut1)
    ∧ (∀ v ∈ (cceIter bounds f mut1 mut2 reflection_coef contraction_coef s).2,
        inBounds bounds v = true) := by
  have hsne : sortDesc s ≠ [] := sortDesc_ne_nil hs
  have hworst : (sortDesc s).getLastD pt0 ∈ s :=
    mem_sortDesc.mp (getLastD_mem _ pt0 hsne)
  have hwb : inBounds bounds ((sortDesc s).getLastD pt0).coords = true :=
    (hpts _ hworst).1
  have hwl : ((sortDesc s).getLastD pt0).coords.length = bounds.length :=
    (hpts _ hworst).2
  have hcent : inBounds bounds (simplexCentroid (sortDesc s)) = true := by
    apply mean_in_bounds
    · intro hmape
      exact hsne (List.map_eq_nil_iff.mp hmape)
    · intro c hc
      obtain ⟨pt, hpt, rfl⟩ := List.mem_map.mp hc
      exact (hpts pt (mem_sortDesc.mp hpt)).2
    · intro c hc
      obtain ⟨pt, hpt, rfl⟩ := List.mem_map.mp hc
      exact (hpts pt (mem_sortDesc.mp hpt)).1
  have hcentlen : (simplexCentroid (sortDesc s)).length = bounds.length := by
    rw [simplexCentroid, coordMean_length]
    cases hsort : sortDesc s with
    | nil => exact absurd hsort hsne
    | cons x xs =>
        simp only [List.map_cons, List.headD_cons]
        apply (hpts x (mem_sortDesc.mp (by rw [hsort]; simp))).2
  have hcontr : inBounds bounds
      (contractPt ((sortDesc s).getLastD pt0).coords
        (simplexCentroid (sortDesc s)) contraction_coef) = true := by
    unfold contractPt
    exact convex_comb_inBounds bounds _ _ contraction_coef hc0 hc1 hwb hcent
      hwl hcentlen
  refine ⟨?_, ?_, ?_⟩
  · intro hb
    simp only [cceIter, hb, if_true]
    split_ifs <;> simp
  · intro hb
    simp only [cceIter, hb, Bool.false_eq_true, if_false]
    split_ifs <;> simp
  · intro v hv
    simp only [cceIter] at hv
    by_cases hb : inBounds bounds (reflectPt (simplexCentroid (sortDesc s))
        ((sortDesc s).getLastD pt0).coords reflection_coef) = true
    · simp only [hb, if_true] at hv
      split_ifs at hv <;>
        simp only [List.cons_append, List.nil_append, List.mem_cons,
          List.mem_singleton, List.not_mem_nil, or_false] at hv <;>
        rcases hv with rfl | rfl | rfl <;>
        first
          | exact hb
          | exact hcontr
          | exact hm2
    · simp only [hb, Bool.false_eq_true, if_false] at hv
      split_ifs at hv <;>
        simp only [List.cons_append, List.nil_append, List.mem_cons,
          List.mem_singleton, List.not_mem_nil, or_false] at hv <;>
        rcases hv with rfl | rfl | rfl <;>
        first
          | exact hm1
          | exact hcontr
          | exact hm2

/-- Witness for claim C4: with bounds [0, 4] the sorted three-point
simplex [4], [4], [1] reflects its worst point to [5], which is out of
bounds, so the in-bounds mutation point [2] is what gets evaluated
first. -/
theorem claim_C4_witness :
    ((cceIter [((0 : ℚ), 4)] (fun _ => (5 : ℚ)) [2] [3] 1 1
      ([⟨[4], 2⟩, ⟨[4], 1⟩, ⟨[1], 0⟩] : List Point)).2).headD [] = [2] := by
  have h := (claim_C4_bounds_safety [((0 : ℚ), 4)] (fun _ => (5 : ℚ)) [2] [3]
    1 1 ([⟨[4], 2⟩, ⟨[4], 1⟩, ⟨[1], 0⟩] : List Point)
    (by decide) (by decide) (by decide) (by decide) (by decide)
    (by decide)).2.1 ?_
  · exact h
  · norm_num [reflectPt, simplexCentroid, coordMean, sortDesc, insertDesc,
      vadd, vsub, vsmul, inBounds, pt0, List.range_succ]

/-- Claim C5: in every CCE inner iteration, with the default coefficients
reflection_coef = 1 and contraction_coef = 1/2 used by calibrate, the
reflection candidate is centroid + 1 * (centroid - worst), that is
2 * centroid - worst coordinate-wise; the candidate that gets evaluated
first is the reflected point when in bounds, else the mutation point;
when the evaluated candidate scores strictly below the worst point, the
contraction candidate worst + (1/2) * (centroid - worst), that is the
coordinate-wise midpoint of worst and centroid, is evaluated next; when
that is still strictly worse, the second mutation point is evaluated; and
the worst point of the sorted Simplex is unconditionally replaced by the
surviving candidate, even when its score is no better, the rest of the
Simplex being kept. -/
theorem claim_C5_operators (bounds : List (ℚ × ℚ)) (f : List ℚ → ℚ)
    (mut1 mut2 : List ℚ) (s sorted : List Point) (worst : Point)
    (centroid new contr cand1 : List ℚ)
    (hs : s ≠ [])
    (hsorted : sorted = sortDesc s)
    (hworst : worst = sorted.getLastD pt0)
    (hcentroid : centroid = simplexCentroid sorted)
    (hnew : new = reflectPt centroid worst.coords 1)
    (hcontr : contr = contractPt worst.coords centroid (1 / 2))
    (hcand1 : cand1 = if inBounds bounds new then new else mut1) :
    new = vsub (vsmul 2 centroid) worst.coords
    ∧ contr = vsmul (1 / 2) (vadd worst.coords centroid)
    ∧ (cceIter bounds f mut1 mut2 1 (1 / 2) s).2.headD [] = cand1
    ∧ (f cand1 < worst.objective →
        (cceIter bounds f mut1 mut2 1 (1 / 2) s).2.getD 1 [] = contr)
    ∧ (¬ f cand1 < worst.objective →
        (cceIter bounds f mut1 mut2 1 (1 / 2) s).1 =
          sorted.dropLast ++ [⟨cand1, f cand1⟩])
    ∧ (f cand1 < worst.objective → ¬ f contr < worst.objective →
        (cceIter bounds f mut1 mut2 1 (1 / 2) s).1 =
          sorted.dropLast ++ [⟨contr, f contr⟩])
    ∧ (f cand1 < worst.objective → f contr < worst.objective →
        (cceIter bounds f mut1 mut2 1 (1 / 2) s).1 =
          sorted.dropLast ++ [⟨mut2, f mut2⟩])
    ∧ (cceIter bounds f mut1 mut2 1 (1 / 2) s).1.length = s.length := by
  subst hsorted hworst hcentroid hnew hcontr hcand1
  have hlen : (cceIter bounds f mut1 mut2 1 (1 / 2) s).1.length = s.length := by
    have hpos : 0 < s.length := List.length_pos.mpr hs
    have hslen : 0 < (sortDesc s).length := by rw [sortDesc_length]; exact hpos
    simp only [cceIter, List.length_append, List.length_dropLast,
      sortDesc_length, List.length_singleton]
    omega
  by_cases hb : inBounds bounds (reflectPt (simplexCentroid (sortDesc s))
      ((sortDesc s).getLastD pt0).coords 1) = true
  · refine ⟨reflect_one _ _, contract_half _ _, ?_, ?_, ?_, ?_, ?_, hlen⟩ <;>
      simp only [cceIter, hb, if_true] <;>
      [skip; intro h1; intro h1; intro h1 h2; intro h1 h2] <;>
      split_ifs <;> simp_all
  · refine ⟨reflect_one _ _, contract_half _ _, ?_, ?_, ?_, ?_, ?_, hlen⟩ <;>
      simp only [cceIter, hb, Bool.false_eq_true, if_false] <;>
      [skip; intro h1; intro h1; intro h1 h2; intro h1 h2] <;>
      split_ifs <;> simp_all

/-- Witness for claim C5: the inner iteration on a two-point simplex
returns a simplex of unchanged size two. -/
theorem claim_C5_witness :
    (cceIter [((0 : ℚ), 10)] (fun _ => (5 : ℚ)) [2] [3] 1 (1 / 2)
      ([⟨[1], 1⟩, ⟨[4], 0⟩] : List Point)).1.length = 2 := by
  have h := (claim_C5_operators [((0 : ℚ), 10)] (fun _ => (5 : ℚ)) [2] [3]
    ([⟨[1], 1⟩, ⟨[4], 0⟩] : List Point) _ _ _ _ _ _
    (by decide) rfl rfl rfl rfl rfl rfl).2.2.2.2.2.2.2
  simpa using h
